import Mathlib

/-!
Shallow embedding of the go-memdb sources (schema.go, memdb.go, changes.go,
filter.go) and proofs of the claims about them.

Modelling conventions:
- Go maps appear as association lists in one fixed iteration order; map access
  `m[k]` is `mapGet m k`, which finds the first binding of `k`.
- A Go pointer or interface value that may be nil appears as an `Option`.
- A Go `Indexer` interface value is modelled by which of the two sub-interfaces
  (`SingleIndexer`, `MultiIndexer`) its dynamic type implements; a type
  assertion `v.(SingleIndexer)` on a nil interface fails.
- `error` results of the `Validate` functions are an inductive type `VErr`
  with one constructor per `fmt.Errorf` site, so distinct errors stay distinct.
- Go `[]byte` keys obtained as `[]byte(s)` from a string `s` are modelled by
  `s` itself (the byte encoding of a Go string is injective in the string).
-/

namespace Memdb

/-- Go map access `m[k]` on a map modelled as an association list:
the value at the first binding of key `a`, if any. -/
def mapGet {β : Type} : List (String × β) → String → Option β
  | [], _ => none
  | (k, v) :: rest, a => if a = k then some v else mapGet rest a

/-- A Go `Indexer` interface value: records which of the sub-interfaces the
dynamic type implements (`SingleIndexer` and/or `MultiIndexer`). -/
structure IndexerVal where
  isSingle : Bool
  isMulti : Bool
deriving DecidableEq, Repr

/-- Structure `IndexSchema` from schema.go. `Indexer` is `none` when the Go interface
field is nil. -/
structure IndexSchema where
  Name : String
  AllowMissing : Bool
  Unique : Bool
  Indexer : Option IndexerVal
deriving DecidableEq, Repr

/-- Structure `TableSchema` from schema.go; the `Indexes` map is an association list. -/
structure TableSchema where
  Name : String
  Indexes : List (String × IndexSchema)
deriving DecidableEq, Repr

/-- Structure `DBSchema` from schema.go; the `Tables` map is an association list. -/
structure DBSchema where
  Tables : List (String × TableSchema)
deriving DecidableEq, Repr

/-- The distinct error values produced by the three `Validate` functions, one
constructor per `fmt.Errorf` call site; `tableWrap` and `indexWrap` mirror the
`"table %q: %s"` and `"index %q: %s"` wrapping of a nested error. -/
inductive VErr where
  | schemaIsNil
  | noTables
  | tableNameMismatch (name : String)
  | tableWrap (name : String) (e : VErr)
  | missingTableName
  | missingTableIndexes (name : String)
  | mustHaveIdIndex
  | idIndexMustBeUnique
  | idIndexMustBeSingle
  | indexNameMismatch (name : String)
  | indexWrap (name : String) (e : VErr)
  | missingIndexName
  | missingIndexFunc (name : String)
  | badIndexerKind (name : String)
deriving DecidableEq, Repr

/-- The Go type assertion `x.(SingleIndexer)` succeeding on an `Indexer`
interface value: false on a nil interface. -/
def isSingleIndexer : Option IndexerVal → Bool
  | none => false
  | some f => f.isSingle

/-- Function `IndexSchema.Validate` from schema.go: empty name, then nil indexer, then
the type switch over `SingleIndexer` / `MultiIndexer` with an error default. -/
def IndexSchema.Validate (s : IndexSchema) : Option VErr :=
  if s.Name = "" then some .missingIndexName
  else match s.Indexer with
    | none => some (.missingIndexFunc s.Name)
    | some f =>
      if f.isSingle then none
      else if f.isMulti then none
      else some (.badIndexerKind s.Name)

/-- The `for name, index := range s.Indexes` loop of `TableSchema.Validate`:
key/name mismatch is reported before recursing into `index.Validate()`. -/
def validateIndexes : List (String × IndexSchema) → Option VErr
  | [] => none
  | (name, index) :: rest =>
    if name ≠ index.Name then some (.indexNameMismatch name)
    else match index.Validate with
      | some e => some (.indexWrap name e)
      | none => validateIndexes rest

/-- Function `TableSchema.Validate` from schema.go. -/
def TableSchema.Validate (s : TableSchema) : Option VErr :=
  if s.Name = "" then some .missingTableName
  else if s.Indexes.isEmpty then some (.missingTableIndexes s.Name)
  else match mapGet s.Indexes "id" with
    | none => some .mustHaveIdIndex
    | some idix =>
      if !idix.Unique then some .idIndexMustBeUnique
      else if !(isSingleIndexer idix.Indexer) then some .idIndexMustBeSingle
      else validateIndexes s.Indexes

/-- The `for name, table := range s.Tables` loop of `DBSchema.Validate`. -/
def validateTables : List (String × TableSchema) → Option VErr
  | [] => none
  | (name, table) :: rest =>
    if name ≠ table.Name then some (.tableNameMismatch name)
    else match table.Validate with
      | some e => some (.tableWrap name e)
      | none => validateTables rest

/-- Function `DBSchema.Validate` on a non-nil receiver. -/
def DBSchema.Validate (s : DBSchema) : Option VErr :=
  if s.Tables.isEmpty then some .noTables
  else validateTables s.Tables

/-- Function `DBSchema.Validate` including the nil-receiver check (`s == nil`). -/
def DBSchema.ValidatePtr : Option DBSchema → Option VErr
  | none => some .schemaIsNil
  | some s => s.Validate

/-! ### changes.go -/

/-- Structure `Change` from changes.go; `Before`/`After` hold Go interface values, so
they are `Option` to capture nil-ness. -/
structure Change (α : Type) where
  Table : String
  Before : Option α
  After : Option α
  primaryKey : List Nat
deriving DecidableEq, Repr

/-- Method `Change.Created`: `m.Before == nil && m.After != nil`. -/
def Change.Created {α : Type} (m : Change α) : Bool :=
  m.Before.isNone && m.After.isSome

/-- Method `Change.Updated`: `m.Before != nil && m.After != nil`. -/
def Change.Updated {α : Type} (m : Change α) : Bool :=
  m.Before.isSome && m.After.isSome

/-- Method `Change.Deleted`: `m.Before != nil && m.After == nil`. -/
def Change.Deleted {α : Type} (m : Change α) : Bool :=
  m.Before.isSome && m.After.isNone

/-! ### filter.go

The wrapped `ResultIterator` is modelled by the list of values its successive
`Next()` calls return (`none` for a nil result); once that list is exhausted
the iterator keeps returning nil. `FilterIterator.Next` consumes a prefix of
that list and returns the produced value together with the rest of the list.
The Go predicate takes an `interface\x7b\x7d`, so its model takes an
`Option α`; the short-circuit of `value == nil || !f.filter(value)` means the
predicate is only ever applied in the non-nil branch. -/

/-- One call of `FilterIterator.Next`: pull from the wrapped iterator, return
a nil value at once (the predicate is not called), return a non-nil value the
predicate rejects, and skip (loop past) a non-nil value the predicate accepts. -/
def filterNext {α : Type} (filter : Option α → Bool) :
    List (Option α) → Option α × List (Option α)
  | [] => (none, [])
  | none :: rest => (none, rest)
  | some x :: rest =>
    if filter (some x) then filterNext filter rest else (some x, rest)

/-- Repeated calls of `FilterIterator.Next` until it returns nil, collecting
the returned values; the fuel only needs to cover the number of produced
values, and `l.length` always suffices. -/
def filterCollectFuel {α : Type} (filter : Option α → Bool) :
    Nat → List (Option α) → List α
  | 0, _ => []
  | Nat.succ n, l =>
    match filterNext filter l with
    | (none, _) => []
    | (some x, rest) => x :: filterCollectFuel filter n rest

/-- All values a `FilterIterator` over the iterator `l` produces before first
returning nil. -/
def filterCollect {α : Type} (filter : Option α → Bool)
    (l : List (Option α)) : List α :=
  filterCollectFuel filter l.length l

/-- The predicate of claim C3's example: filter out (reject) even numbers; on
a nil interface value it would return false (it is never called on one). -/
def rejectEven : Option Nat → Bool
  | none => false
  | some n => n % 2 = 0

/-! ### memdb.go

`iradix.Tree` values are modelled as association lists with replace-on-insert
and unique keys when built from the empty tree. The objects stored in a
per-index tree play no role in the claims below; only which keys are bound
matters. -/

/-- A per-index radix tree (`*iradix.Tree` stored as a value of the root
tree); `iradix.New()` is `[]`. -/
abbrev ITree := List (String × Nat)

/-- The root radix tree: paths `"table.index"` to per-index trees. -/
abbrev RootTree := List (String × ITree)

/-- Go call `root.Insert(k, v)` of the immutable radix tree: a new tree in which `k`
is bound to `v`; the previous-value and update-flag results are discarded by
the source (`root, _, _ = root.Insert(...)`). -/
def rtInsert : RootTree → String → ITree → RootTree
  | [], k, v => [(k, v)]
  | (k', v') :: rest, k, v =>
    if k = k' then (k, v) :: rest else (k', v') :: rtInsert rest k v

/-- Structure `MemDB` from memdb.go. The `root` field is the tree the unsafe pointer
points at; the writer mutex has no counterpart in this sequential model. -/
structure MemDB where
  schema : DBSchema
  root : RootTree
  primary : Bool
deriving DecidableEq, Repr

/-- Method `getRoot`: the atomic load of the root pointer. -/
def MemDB.getRoot (db : MemDB) : RootTree := db.root

/-- Function `indexPath` returns `[]byte(table + "." + index)`; byte slices of Go
strings are modelled by the strings themselves. -/
def indexPath (table index : String) : String :=
  table ++ "." ++ index

/-- The inner `for iName := range tableSchema.Indexes` loop of
`MemDB.initDB`: insert an empty per-index tree at each index path. -/
def insertIndexes (tName : String) :
    List (String × IndexSchema) → RootTree → RootTree
  | [], root => root
  | (iName, _) :: rest, root =>
    insertIndexes tName rest (rtInsert root (indexPath tName iName) [])

/-- The outer `for tName, tableSchema := range db.schema.Tables` loop of
`MemDB.initDB`. -/
def insertTables : List (String × TableSchema) → RootTree → RootTree
  | [], root => root
  | (tName, ts) :: rest, root =>
    insertTables rest (insertIndexes tName ts.Indexes root)

/-- The source's initialize method (`MemDB.initDB` here): for every table and every declared index, insert an
empty per-index tree at `indexPath tName iName` into the root, then store the
new root. (The Go function's error result is the constant nil.) -/
def MemDB.initDB (db : MemDB) : MemDB :=
  { db with root := insertTables db.schema.Tables db.root }

/-- Function `NewMemDB`: validate the schema (returning its error on failure), then
build the database with an empty root, `primary = true`, and run
`initialize`. The last branch is unreachable because `ValidatePtr none` is
`some .schemaIsNil`. -/
def NewMemDB (schema : Option DBSchema) : Except VErr MemDB :=
  match DBSchema.ValidatePtr schema, schema with
  | some e, _ => .error e
  | none, some s => .ok (MemDB.initDB { schema := s, root := [], primary := true })
  | none, none => .error .schemaIsNil

/-- Method `MemDB.Snapshot`: a clone sharing the captured root, same schema, marked
non-primary. -/
def MemDB.Snapshot (db : MemDB) : MemDB :=
  { schema := db.schema, root := db.getRoot, primary := false }

/-- The `Snapshot` method as a state transformer on its receiver: the source
assigns to no field of `db`, so the receiver component is returned exactly as
read; the second component is the returned clone. -/
def MemDB.SnapshotOp (db : MemDB) : MemDB × MemDB :=
  (db, db.Snapshot)

/-! ## Helper lemmas: filter iterator -/

/-- On an iterator that yields only non-nil values, one `Next()` call skips
exactly the longest prefix the predicate accepts and returns the first value
it rejects, with the untouched remainder as the new state. -/
theorem filterNext_map_some {α : Type} (f : Option α → Bool) (l : List α) :
    filterNext f (l.map some) =
      match l.dropWhile (fun x => f (some x)) with
      | [] => (none, [])
      | x :: r => (some x, r.map some) := by
  induction l with
  | nil => rfl
  | cons x r ih =>
    simp only [List.map_cons, filterNext, List.dropWhile_cons]
    by_cases h : f (some x) = true
    · simpa [h] using ih
    · simp [h]

theorem filterCollectFuel_map_some {α : Type} (f : Option α → Bool) (l : List α) :
    ∀ n : Nat, l.length ≤ n →
      filterCollectFuel f n (l.map some) = l.filter (fun x => !f (some x)) := by
  induction l with
  | nil =>
    intro n _
    cases n <;> rfl
  | cons x r ih =>
    intro n hn
    cases n with
    | zero => simp at hn
    | succ m =>
      by_cases h : f (some x) = true
      · have hskip : filterCollectFuel f (m + 1) ((x :: r).map some) =
            filterCollectFuel f (m + 1) (r.map some) := by
          simp only [List.map_cons, filterCollectFuel, filterNext, h, if_true]
        rw [hskip, ih (m + 1) (by simpa using Nat.le_succ_of_le (Nat.succ_le_succ_iff.mp hn))]
        simp [List.filter_cons, h]
      · have hr : r.length ≤ m := Nat.succ_le_succ_iff.mp (by simpa using hn)
        simp [filterCollectFuel, filterNext, h, List.filter_cons, ih m hr]

/-! ## Claims about changes.go and filter.go -/

/-- C2: for every `Change`, `Created()` holds exactly when `Before` is nil and
`After` is not, `Deleted()` exactly when `Before` is not nil and `After` is,
`Updated()` exactly when both are non-nil, and no two of the three predicates
hold of the same `Change`. -/
theorem C2_change_classification {α : Type} (m : Change α) :
    (m.Created = true ↔ (m.Before = none ∧ m.After ≠ none)) ∧
    (m.Deleted = true ↔ (m.Before ≠ none ∧ m.After = none)) ∧
    (m.Updated = true ↔ (m.Before ≠ none ∧ m.After ≠ none)) ∧
    (m.Created && m.Updated) = false ∧
    (m.Created && m.Deleted) = false ∧
    (m.Updated && m.Deleted) = false := by
  obtain ⟨t, b, a, k⟩ := m
  cases b <;> cases a <;>
    simp [Change.Created, Change.Updated, Change.Deleted]

/-- C3: `FilterIterator.Next()` skips every pulled value the predicate accepts
(filters out), returns the first pulled value the predicate rejects, and
returns the nil sentinel once the wrapped iterator is exhausted; the surviving
values come out in their original order, and on `[1,2,3,4]` with a
reject-even predicate the iterator yields exactly `1`, then `3`, then the
sentinel, never resuming. -/
theorem C3_filter_semantics :
    (∀ (α : Type) (f : Option α → Bool) (l : List α),
      filterNext f (l.map some) =
        match l.dropWhile (fun x => f (some x)) with
        | [] => (none, [])
        | x :: r => (some x, r.map some)) ∧
    (∀ (α : Type) (f : Option α → Bool) (l : List α),
      filterCollect f (l.map some) = l.filter (fun x => !f (some x))) ∧
    filterCollect rejectEven ([1, 2, 3, 4].map some) = [1, 3] ∧
    filterNext rejectEven [some 1, some 2, some 3, some 4] =
      (some 1, [some 2, some 3, some 4]) ∧
    filterNext rejectEven [some 2, some 3, some 4] = (some 3, [some 4]) ∧
    filterNext rejectEven [some 4] = (none, []) ∧
    filterNext rejectEven ([] : List (Option Nat)) = (none, []) := by
  refine ⟨fun α f l => filterNext_map_some f l, fun α f l => ?_, ?_, ?_, ?_, ?_, ?_⟩
  · have := filterCollectFuel_map_some f l l.length (Nat.le_refl _)
    simpa [filterCollect] using this
  · decide
  · decide
  · decide
  · decide
  · decide

/-- C10: when the wrapped iterator returns nil, `FilterIterator.Next()`
returns nil at once with the rest of the iterator untouched, and the
predicate is never applied to a nil value — the result depends only on the
predicate's behaviour on non-nil values. -/
theorem C10_filter_nil_short_circuit :
    (∀ (α : Type) (f : Option α → Bool) (rest : List (Option α)),
      filterNext f (none :: rest) = (none, rest)) ∧
    (∀ (α : Type) (f g : Option α → Bool) (l : List (Option α)),
      (∀ a : α, f (some a) = g (some a)) → filterNext f l = filterNext g l) := by
  constructor
  · intro α f rest
    rfl
  · intro α f g l h
    induction l with
    | nil => rfl
    | cons v rest ih =>
      cases v with
      | none => rfl
      | some x => simp only [filterNext, h x, ih]

/-! ## Helper lemmas: schema validation -/

/-- Claim C1's "non-nil SingleIndexer or MultiIndexer" condition on the
`Indexer` field of an index. -/
def indexerKinded : Option IndexerVal → Bool
  | none => false
  | some f => f.isSingle || f.isMulti

/-- Claim C1's per-index well-formedness at map key `k`: the name matches the
key, is non-empty, and the indexer is a non-nil Single- or MultiIndexer. -/
def IndexSchema.wellKeyed (k : String) (s : IndexSchema) : Bool :=
  (k == s.Name) && (s.Name != "") && indexerKinded s.Indexer

/-- Claim C1's primary-index condition on a table: an `"id"` index exists,
is `Unique`, and its indexer is a SingleIndexer. -/
def TableSchema.hasGoodId (t : TableSchema) : Bool :=
  match mapGet t.Indexes "id" with
  | none => false
  | some idix => idix.Unique && isSingleIndexer idix.Indexer

/-- Claim C1's failure condition on a table: the `"id"` index is missing, not
`Unique`, or its indexer is not a SingleIndexer. -/
def TableSchema.idIndexBroken (t : TableSchema) : Bool :=
  match mapGet t.Indexes "id" with
  | none => true
  | some idix => !idix.Unique || !isSingleIndexer idix.Indexer

/-- Claim C1's per-table well-formedness at map key `k`. -/
def TableSchema.wellKeyed (k : String) (t : TableSchema) : Bool :=
  (k == t.Name) && (t.Name != "") && t.hasGoodId &&
    t.Indexes.all (fun q => q.2.wellKeyed q.1)

/-- Claim C1's well-formedness of a whole (possibly nil) schema: non-nil, at
least one table, and every table well-formed at its key. -/
def DBSchema.wellFormed : Option DBSchema → Bool
  | none => false
  | some s => !s.Tables.isEmpty && s.Tables.all (fun p => p.2.wellKeyed p.1)

theorem indexValidate_eq_none_iff (s : IndexSchema) :
    s.Validate = none ↔ (s.Name ≠ "" ∧ indexerKinded s.Indexer = true) := by
  obtain ⟨n, am, u, ix⟩ := s
  cases ix with
  | none => by_cases h : n = "" <;> simp [IndexSchema.Validate, indexerKinded, h]
  | some f =>
    by_cases h : n = "" <;> cases hs : f.isSingle <;> cases hm : f.isMulti <;>
      simp [IndexSchema.Validate, indexerKinded, h, hs, hm]

theorem validateIndexes_eq_none_iff (l : List (String × IndexSchema)) :
    validateIndexes l = none ↔
      ∀ p ∈ l, p.1 = p.2.Name ∧ p.2.Validate = none := by
  induction l with
  | nil => simp [validateIndexes]
  | cons p rest ih =>
    obtain ⟨name, index⟩ := p
    by_cases h : name = index.Name
    · cases hv : index.Validate with
      | some e => simp [validateIndexes, h, hv]
      | none => simp [validateIndexes, h, hv, ih]
    · simp [validateIndexes, h]

theorem mapGet_ne_nil {β : Type} {l : List (String × β)} {a : String} {b : β}
    (h : mapGet l a = some b) : l.isEmpty = false := by
  cases l with
  | nil => simp [mapGet] at h
  | cons p rest => rfl

theorem tableValidate_eq_none_iff (t : TableSchema) :
    t.Validate = none ↔
      (t.Name ≠ "" ∧ ∃ idix, mapGet t.Indexes "id" = some idix ∧
        idix.Unique = true ∧ isSingleIndexer idix.Indexer = true ∧
        validateIndexes t.Indexes = none) := by
  obtain ⟨n, idxs⟩ := t
  by_cases hn : n = ""
  · simp [TableSchema.Validate, hn]
  · cases hg : mapGet idxs "id" with
    | none =>
      cases he : idxs.isEmpty <;> simp [TableSchema.Validate, hn, he, hg]
    | some idix =>
      have he : idxs.isEmpty = false := mapGet_ne_nil hg
      cases hu : idix.Unique <;> cases hs : isSingleIndexer idix.Indexer <;>
        simp [TableSchema.Validate, hn, he, hg, hu, hs]

theorem validateTables_eq_none_iff (l : List (String × TableSchema)) :
    validateTables l = none ↔
      ∀ p ∈ l, p.1 = p.2.Name ∧ p.2.Validate = none := by
  induction l with
  | nil => simp [validateTables]
  | cons p rest ih =>
    obtain ⟨name, table⟩ := p
    by_cases h : name = table.Name
    · cases hv : table.Validate with
      | some e => simp [validateTables, h, hv]
      | none => simp [validateTables, h, hv, ih]
    · simp [validateTables, h]

theorem indexWellKeyed_iff (k : String) (s : IndexSchema) :
    s.wellKeyed k = true ↔ (k = s.Name ∧ s.Validate = none) := by
  rw [indexValidate_eq_none_iff]
  simp [IndexSchema.wellKeyed, and_assoc]

theorem tableWellKeyed_iff (k : String) (t : TableSchema) :
    t.wellKeyed k = true ↔ (k = t.Name ∧ t.Validate = none) := by
  rw [tableValidate_eq_none_iff]
  simp only [TableSchema.wellKeyed, TableSchema.hasGoodId, Bool.and_eq_true,
    beq_iff_eq, bne_iff_ne, ne_eq, List.all_eq_true, validateIndexes_eq_none_iff]
  cases hg : mapGet t.Indexes "id" with
  | none => simp
  | some idix =>
    constructor
    · rintro ⟨⟨⟨hk, hn⟩, hid⟩, hall⟩
      refine ⟨hk, hn, idix, rfl, ?_, ?_, ?_⟩
      · exact (Bool.and_eq_true _ _).mp hid |>.1
      · exact (Bool.and_eq_true _ _).mp hid |>.2
      · intro p hp
        have := (indexWellKeyed_iff p.1 p.2).mp (hall p hp)
        exact this
    · rintro ⟨hk, hn, idix', hg', hu, hs, hall⟩
      have : idix' = idix := (Option.some_inj.mp hg').symm
      subst this
      refine ⟨⟨⟨hk, hn⟩, by simp [hu, hs]⟩, ?_⟩
      intro p hp
      exact (indexWellKeyed_iff p.1 p.2).mpr (hall p hp)

theorem DBSchema.validatePtr_eq_none_iff (s : Option DBSchema) :
    DBSchema.ValidatePtr s = none ↔ DBSchema.wellFormed s = true := by
  cases s with
  | none => simp [DBSchema.ValidatePtr, DBSchema.wellFormed]
  | some sc =>
    simp only [DBSchema.ValidatePtr, DBSchema.Validate, DBSchema.wellFormed]
    cases he : sc.Tables.isEmpty
    · simp only [he, Bool.false_eq_true, if_false, Bool.not_false, Bool.true_and,
        validateTables_eq_none_iff, List.all_eq_true]
      constructor
      · intro h p hp
        exact (tableWellKeyed_iff p.1 p.2).mpr (h p hp)
      · intro h p hp
        exact (tableWellKeyed_iff p.1 p.2).mp (h p hp)
    · simp [he]

/-- C1: `Validate()` errors on every schema in which some table lacks an
`"id"` index, has a non-`Unique` one, or has one whose indexer is not a
SingleIndexer, and returns nil exactly on the well-formed schemas (non-nil,
at least one table, table names matching their keys and non-empty, every
table with a unique single-value `"id"` index, index names matching their
keys and non-empty, every indexer a non-nil Single- or MultiIndexer). -/
theorem C1_validate_correct (s : Option DBSchema) :
    (DBSchema.ValidatePtr s = none ↔ DBSchema.wellFormed s = true) ∧
    (∀ sc : DBSchema, ∀ p ∈ sc.Tables, s = some sc →
      p.2.idIndexBroken = true → ∃ e, DBSchema.ValidatePtr s = some e) := by
  refine ⟨DBSchema.validatePtr_eq_none_iff s, ?_⟩
  intro sc p hp hs hbroken
  subst hs
  cases hv : DBSchema.ValidatePtr (some sc) with
  | some e => exact ⟨e, rfl⟩
  | none =>
    exfalso
    have hwf := (DBSchema.validatePtr_eq_none_iff (some sc)).mp hv
    simp only [DBSchema.wellFormed, Bool.and_eq_true, List.all_eq_true] at hwf
    have hkey := (tableWellKeyed_iff p.1 p.2).mp (hwf.2 p hp)
    have hval := (tableValidate_eq_none_iff p.2).mp hkey.2
    obtain ⟨_, idix, hg, hu, hs1, _⟩ := hval
    simp only [TableSchema.idIndexBroken, hg, hu, hs1] at hbroken
    simp at hbroken

/-- C7: each `Validate` reports the first structural violation in its fixed
check order — a `DBSchema` checks nil, then an empty table set, then, per
table entry, key/name mismatch before recursing; a `TableSchema` checks empty
name (reported regardless of any index violations also present), then empty
index set, then a missing `"id"` index, then `"id"` not `Unique`, then its
indexer not a SingleIndexer, then, per index entry, key/name mismatch before
recursing; an `IndexSchema` checks empty name, then nil indexer, then an
unrecognized indexer variant. -/
theorem C7_validate_check_order :
    (DBSchema.ValidatePtr none = some .schemaIsNil) ∧
    (∀ sc : DBSchema, sc.Tables = [] →
      DBSchema.ValidatePtr (some sc) = some .noTables) ∧
    (∀ (name : String) (table : TableSchema) (rest : List (String × TableSchema)),
      name ≠ table.Name →
      validateTables ((name, table) :: rest) = some (.tableNameMismatch name)) ∧
    (∀ t : TableSchema, t.Name = "" → t.Validate = some .missingTableName) ∧
    (∀ t : TableSchema, t.Name ≠ "" → t.Indexes = [] →
      t.Validate = some (.missingTableIndexes t.Name)) ∧
    (∀ t : TableSchema, t.Name ≠ "" → t.Indexes ≠ [] →
      mapGet t.Indexes "id" = none → t.Validate = some .mustHaveIdIndex) ∧
    (∀ (t : TableSchema) (idix : IndexSchema), t.Name ≠ "" →
      mapGet t.Indexes "id" = some idix → idix.Unique = false →
      t.Validate = some .idIndexMustBeUnique) ∧
    (∀ (t : TableSchema) (idix : IndexSchema), t.Name ≠ "" →
      mapGet t.Indexes "id" = some idix → idix.Unique = true →
      isSingleIndexer idix.Indexer = false →
      t.Validate = some .idIndexMustBeSingle) ∧
    (∀ (name : String) (index : IndexSchema) (rest : List (String × IndexSchema)),
      name ≠ index.Name →
      validateIndexes ((name, index) :: rest) = some (.indexNameMismatch name)) ∧
    (∀ s : IndexSchema, s.Name = "" → s.Validate = some .missingIndexName) ∧
    (∀ s : IndexSchema, s.Name ≠ "" → s.Indexer = none →
      s.Validate = some (.missingIndexFunc s.Name)) ∧
    (∀ (s : IndexSchema) (f : IndexerVal), s.Name ≠ "" → s.Indexer = some f →
      f.isSingle = false → f.isMulti = false →
      s.Validate = some (.badIndexerKind s.Name)) := by
  refine ⟨rfl, ?_, ?_, ?_, ?_, ?_, ?_, ?_, ?_, ?_, ?_, ?_⟩
  · intro sc h
    simp [DBSchema.ValidatePtr, DBSchema.Validate, h]
  · intro name table rest h
    simp [validateTables, h]
  · intro t h
    simp [TableSchema.Validate, h]
  · intro t hn hi
    simp [TableSchema.Validate, hn, hi]
  · intro t hn hi hg
    have he : t.Indexes.isEmpty = false := by
      cases hidx : t.Indexes with
      | nil => exact absurd hidx hi
      | cons p rest => rfl
    simp [TableSchema.Validate, hn, he, hg]
  · intro t idix hn hg hu
    have he : t.Indexes.isEmpty = false := mapGet_ne_nil hg
    simp [TableSchema.Validate, hn, he, hg, hu]
  · intro t idix hn hg hu hs
    have he : t.Indexes.isEmpty = false := mapGet_ne_nil hg
    simp [TableSchema.Validate, hn, he, hg, hu, hs]
  · intro name index rest h
    simp [validateIndexes, h]
  · intro s h
    simp [IndexSchema.Validate, h]
  · intro s hn hi
    simp [IndexSchema.Validate, hn, hi]
  · intro s f hn hi hs hm
    simp [IndexSchema.Validate, hn, hi, hs, hm]

/-! ## Claims about memdb.go -/

/-- C4: `NewMemDB` returns a database exactly when `schema.Validate()`
returns nil; when validation fails it returns that validation error and no
database. -/
theorem C4_newMemDB_validates (s : Option DBSchema) :
    (∀ e, DBSchema.ValidatePtr s = some e → NewMemDB s = .error e) ∧
    ((∃ db, NewMemDB s = .ok db) ↔ DBSchema.ValidatePtr s = none) := by
  cases s with
  | none =>
    refine ⟨?_, ?_⟩
    · intro e he
      simp only [DBSchema.ValidatePtr, Option.some_inj] at he
      rw [← he]
      rfl
    · simp [NewMemDB, DBSchema.ValidatePtr]
  | some sc =>
    cases hv : sc.Validate with
    | some e' =>
      have h1 : NewMemDB (some sc) = .error e' := by
        simp [NewMemDB, DBSchema.ValidatePtr, hv]
      refine ⟨?_, ?_⟩
      · intro e he
        simp only [DBSchema.ValidatePtr, hv, Option.some_inj] at he
        rw [← he]
        exact h1
      · simp [h1, DBSchema.ValidatePtr, hv]
    | none =>
      have h1 : NewMemDB (some sc) =
          .ok (MemDB.initDB { schema := sc, root := [], primary := true }) := by
        simp [NewMemDB, DBSchema.ValidatePtr, hv]
      refine ⟨?_, ?_⟩
      · intro e he
        simp [DBSchema.ValidatePtr, hv] at he
      · simp [h1, DBSchema.ValidatePtr, hv]

/-! ## Helper lemmas: root-tree initialization -/

theorem rtInsert_mapGet (r : RootTree) (k k' : String) (v : ITree) :
    mapGet (rtInsert r k' v) k = if k = k' then some v else mapGet r k := by
  induction r with
  | nil => simp [rtInsert, mapGet]
  | cons p rest ih =>
    obtain ⟨k0, v0⟩ := p
    by_cases h : k' = k0
    · subst h
      by_cases hk : k = k' <;> simp [rtInsert, mapGet, hk]
    · by_cases hk : k = k0
      · subst hk
        have hkk : ¬k = k' := fun e => h e.symm
        simp [rtInsert, mapGet, h, hkk]
      · simp [rtInsert, mapGet, h, hk, ih]

theorem insertIndexes_mapGet (tName : String)
    (idxs : List (String × IndexSchema)) (r : RootTree) (k : String) :
    mapGet (insertIndexes tName idxs r) k =
      if idxs.any (fun q => k == indexPath tName q.1) then some []
      else mapGet r k := by
  induction idxs generalizing r with
  | nil => simp [insertIndexes]
  | cons q rest ih =>
    obtain ⟨iName, isch⟩ := q
    simp only [insertIndexes]
    rw [ih]
    by_cases h1 : (rest.any fun q => k == indexPath tName q.1) = true
    · simp [List.any_cons, h1]
    · simp only [List.any_cons, h1, Bool.or_false]
      rw [rtInsert_mapGet]
      by_cases h2 : k = indexPath tName iName <;> simp [h1, h2]

theorem insertTables_mapGet (tabs : List (String × TableSchema))
    (r : RootTree) (k : String) :
    mapGet (insertTables tabs r) k =
      if tabs.any (fun p => p.2.Indexes.any fun q => k == indexPath p.1 q.1)
      then some [] else mapGet r k := by
  induction tabs generalizing r with
  | nil => simp [insertTables]
  | cons p rest ih =>
    obtain ⟨tName, ts⟩ := p
    simp only [insertTables]
    rw [ih]
    by_cases h1 :
        (rest.any fun p => p.2.Indexes.any fun q => k == indexPath p.1 q.1) = true
    · simp [List.any_cons, h1]
    · simp only [List.any_cons, h1, Bool.or_false]
      rw [insertIndexes_mapGet]
      by_cases h2 : (ts.Indexes.any fun q => k == indexPath tName q.1) = true <;>
        simp [h1, h2]

/-- C5: after `NewMemDB` succeeds on a schema, the root tree binds the path
`indexPath t i` of every declared table `t` and index `i` to an empty
per-index tree, and binds no other key. -/
theorem C5_initialize_paths (s : DBSchema) (db : MemDB)
    (h : NewMemDB (some s) = .ok db) :
    (∀ p ∈ s.Tables, ∀ q ∈ p.2.Indexes,
      mapGet db.root (indexPath p.1 q.1) = some []) ∧
    (∀ k : String, (mapGet db.root k).isSome = true →
      ∃ p ∈ s.Tables, ∃ q ∈ p.2.Indexes, k = indexPath p.1 q.1) := by
  have hroot : db.root = insertTables s.Tables [] := by
    cases hv : s.Validate with
    | some e => simp [NewMemDB, DBSchema.ValidatePtr, hv] at h
    | none =>
      have h1 : NewMemDB (some s) =
          .ok (MemDB.initDB { schema := s, root := [], primary := true }) := by
        simp [NewMemDB, DBSchema.ValidatePtr, hv]
      rw [h1] at h
      injection h with h2
      rw [← h2]
      rfl
  constructor
  · intro p hp q hq
    rw [hroot, insertTables_mapGet]
    have hc :
        (s.Tables.any fun p' =>
          p'.2.Indexes.any fun q' => indexPath p.1 q.1 == indexPath p'.1 q'.1) = true := by
      rw [List.any_eq_true]
      refine ⟨p, hp, ?_⟩
      rw [List.any_eq_true]
      exact ⟨q, hq, by simp⟩
    simp [hc]
  · intro k hk
    rw [hroot, insertTables_mapGet] at hk
    by_cases hc :
        (s.Tables.any fun p => p.2.Indexes.any fun q => k == indexPath p.1 q.1) = true
    · rw [List.any_eq_true] at hc
      obtain ⟨p, hp, hc2⟩ := hc
      rw [List.any_eq_true] at hc2
      obtain ⟨q, hq, hc3⟩ := hc2
      exact ⟨p, hp, q, hq, by simpa using hc3⟩
    · simp [hc, mapGet] at hk

/-- A one-table, one-index schema and its database, used to witness C5. -/
def exIdx : IndexSchema :=
  { Name := "id", AllowMissing := false, Unique := true,
    Indexer := some { isSingle := true, isMulti := false } }

def exTable : TableSchema := { Name := "people", Indexes := [("id", exIdx)] }

def exSchema : DBSchema := { Tables := [("people", exTable)] }

def exDB : MemDB :=
  MemDB.initDB { schema := exSchema, root := [], primary := true }

theorem C5_initialize_paths_witness :
    mapGet exDB.root (indexPath "people" "id") = some [] := by
  have h := C5_initialize_paths exSchema exDB rfl
  exact h.1 ("people", exTable) (by decide) ("id", exIdx) (by decide)

/-- C6: `Snapshot()` returns a clone with the captured root pointer, the same
schema, and `primary = false`, and assigns to no field of the receiver. -/
theorem C6_snapshot (db : MemDB) :
    (MemDB.SnapshotOp db).1 = db ∧
    (MemDB.SnapshotOp db).2.schema = db.schema ∧
    (MemDB.SnapshotOp db).2.root = db.getRoot ∧
    (MemDB.SnapshotOp db).2.primary = false :=
  ⟨rfl, rfl, rfl, rfl⟩

/-! ## Claim C9: injectivity of indexPath -/

/-- C9 counterexample: `indexPath` is not injective on arbitrary name pairs —
the distinct pairs `("a.b", "c")` and `("a", "b.c")` map to the same root
key `"a.b.c"` (schema validation does not forbid `'.'` in names). -/
theorem C9_indexPath_not_injective :
    indexPath "a.b" "c" = indexPath "a" "b.c" ∧
    ¬(("a.b" : String) = "a" ∧ ("c" : String) = "b.c") :=
  ⟨rfl, by decide⟩

/-- Splitting a list at a separator character is unambiguous when neither
candidate prefix contains the separator. -/
theorem sep_split (c : Char) :
    ∀ a b x y : List Char, c ∉ a → c ∉ b →
      a ++ c :: x = b ++ c :: y → a = b ∧ x = y := by
  intro a
  induction a with
  | nil =>
    intro b x y _ hb h
    cases b with
    | nil => simpa using h
    | cons d b' =>
      simp only [List.nil_append, List.cons_append, List.cons_eq_cons] at h
      exact absurd (h.1 ▸ List.mem_cons_self d b') hb
  | cons d a' ih =>
    intro b x y ha hb h
    cases b with
    | nil =>
      simp only [List.nil_append, List.cons_append, List.cons_eq_cons] at h
      exact absurd (h.1 ▸ List.mem_cons_self d a') ha
    | cons e b' =>
      simp only [List.cons_append, List.cons_eq_cons] at h
      obtain ⟨hde, h'⟩ := h
      have hrec := ih b' x y (fun hc => ha (List.mem_cons_of_mem _ hc))
        (fun hc => hb (List.mem_cons_of_mem _ hc)) h'
      exact ⟨by rw [hde, hrec.1], hrec.2⟩

/-- C9 amended: `indexPath` is injective on pairs whose table names contain
no `'.'` character — for such pairs, equal root keys force equal table names
and equal index names. -/
theorem C9_indexPath_inj_amended (t1 i1 t2 i2 : String)
    (h1 : ('.' : Char) ∉ t1.data) (h2 : ('.' : Char) ∉ t2.data)
    (h : indexPath t1 i1 = indexPath t2 i2) : t1 = t2 ∧ i1 = i2 := by
  have hd : t1.data ++ '.' :: i1.data = t2.data ++ '.' :: i2.data := by
    have hc := congrArg String.data h
    simpa [indexPath, String.data_append] using hc
  obtain ⟨ht, hi⟩ := sep_split '.' t1.data t2.data i1.data i2.data h1 h2 hd
  exact ⟨String.ext ht, String.ext hi⟩

theorem C9_indexPath_inj_amended_witness :
    ("ab" : String) = "ab" ∧ ("id" : String) = "id" :=
  C9_indexPath_inj_amended "ab" "id" "ab" "id" (by decide) (by decide) rfl

end Memdb
